import Mathlib

/-!
# Verification of the document-QA pipeline

A shallow embedding of the four pure components of the document question
answering pipeline (`preprocess_document`, `extract_context`,
`calculate_relevance`, `extract_sources`) together with proofs of the
specified properties.

Modelling conventions:
* Python strings are modelled as `List Char`; Python's ASCII whitespace and
  `str.lower` are modelled through `Char` predicates and `Char.toLower`.
* Python floats are modelled as exact rationals (`ℚ`); `round(x, 1)` is
  modelled as exact round-half-to-even at one decimal digit.
* Python dictionaries with a fixed key set are modelled as structures; the
  formatted report strings are modelled by structures carrying the data the
  strings interpolate.
* A Python `try ... except` body is modelled in the `Except` monad, where
  the one genuinely fallible primitive (float division) raises on a zero
  denominator; the surrounding handler converts an error to the error
  string the code would return.
-/

namespace DocQA

/-- ASCII whitespace, as matched by the regex class `\s` of `re.sub(r'\s+', ' ', ...)`
and split on by `str.split()`/`str.strip()`. -/
def isSpaceChar (c : Char) : Bool :=
  c = ' ' || c = '\t' || c = '\n' || c = '\r' || c = '\x0b' || c = '\x0c'

/-- Sentence-terminal punctuation, the class `[.!?]` of `re.split(r'[.!?]+', ...)`. -/
def isSentTerm (c : Char) : Bool :=
  c = '.' || c = '!' || c = '?'

/-- View a Lean string literal as the `List Char` it denotes. -/
def strL (s : String) : List Char := s.toList

/-- Python `str.strip()`: drop leading and trailing whitespace. -/
def stripChars (s : List Char) : List Char :=
  ((s.dropWhile isSpaceChar).reverse.dropWhile isSpaceChar).reverse

/-- Worker for `collapseWS`; the flag records whether the previous character was
part of a whitespace run (for which a single `' '` has already been emitted). -/
def collapseAux : List Char → Bool → List Char
  | [], _ => []
  | c :: rest, inRun =>
    if isSpaceChar c then
      if inRun then collapseAux rest true else ' ' :: collapseAux rest true
    else c :: collapseAux rest false

/-- `re.sub(r'\s+', ' ', s)`: collapse every maximal whitespace run to one space. -/
def collapseWS (s : List Char) : List Char := collapseAux s false

/-- `re.split(r'[.!?]+', s)`, up to the empty fragments the code immediately
discards: splitting at every single terminator character yields the same
fragments as splitting at maximal terminator runs, except for extra empty
fragments between consecutive terminators, and `preprocess_document` filters
out all empty (after `strip`) fragments right after splitting. -/
def splitTerm : List Char → List (List Char)
  | [] => [[]]
  | c :: rest =>
    if isSentTerm c then [] :: splitTerm rest
    else
      match splitTerm rest with
      | [] => [[c]]
      | f :: fs => (c :: f) :: fs

/-- Maximal runs of characters satisfying `p`; the accumulator holds the
current run reversed.  Instantiated with non-whitespace for `str.split()` and
with word characters for `re.findall(r'\b\w+\b', ...)`. -/
def runsAux (p : Char → Bool) : List Char → List Char → List (List Char)
  | [], cur => if cur.isEmpty then [] else [cur.reverse]
  | c :: rest, cur =>
    if p c then runsAux p rest (c :: cur)
    else if cur.isEmpty then runsAux p rest []
    else cur.reverse :: runsAux p rest []

/-- Python `str.split()` (no argument): maximal runs of non-whitespace. -/
def wordsOf (s : List Char) : List (List Char) :=
  runsAux (fun c => !isSpaceChar c) s []

/-- `len(sentence.split())`, the word count used by the chunk packing loop. -/
def sentWC (s : List Char) : Nat := (wordsOf s).length

/-- The sentence list of `preprocess_document`:
`sentences = re.split(r'[.!?]+', cleaned_content)` followed by
`[s.strip() for s in sentences if s.strip()]`. -/
def sentencesOf (doc : List Char) : List (List Char) :=
  ((splitTerm (collapseWS (stripChars doc))).map stripChars).filter
    (fun s => !s.isEmpty)

/-- The packing loop of `preprocess_document`.  `cur` is `current_chunk`
(a list of sentences) and `wc` is `current_word_count`; a chunk closes when
adding the next sentence would push the running word count over 200 and the
current chunk is non-empty.  The source emits `' '.join(current_chunk)` at
each close site; here the emitted chunk is kept as its sentence list and
`preprocess_document` applies the join to every group afterwards, which is
the same computation. -/
def packAux : List (List Char) → List (List Char) → Nat → List (List (List Char))
  | [], cur, _ => if cur.isEmpty then [] else [cur]
  | s :: rest, cur, wc =>
    if 200 < wc + sentWC s ∧ cur ≠ [] then
      cur :: packAux rest [s] (sentWC s)
    else
      packAux rest (cur ++ [s]) (wc + sentWC s)

/-- Python `' '.join(chunk)`. -/
def joinSpace : List (List Char) → List Char
  | [] => []
  | [s] => s
  | s :: t :: rest => s ++ ' ' :: joinSpace (t :: rest)

/-- The result dictionary of `preprocess_document`, with the `metadata`
sub-dictionary flattened into the structure.  In the blank-input branch the
code's metadata carries only the error marker; the remaining fields are
zeroed here. -/
structure ProcessedDoc where
  chunks : List (List Char)
  total_length : Nat
  chunk_count : Nat
  original_length : Nat
  sentence_count : Nat
  has_error : Bool
deriving DecidableEq

/-- `preprocess_document(document_content, question)`: clean, sentence-split
and greedily pack into about-200-word chunks.  The `question` argument is
unused by the source body and is omitted. -/
def preprocess_document (document_content : List Char) : ProcessedDoc :=
  if (stripChars document_content).isEmpty then
    { chunks := [], total_length := 0, chunk_count := 0,
      original_length := 0, sentence_count := 0, has_error := true }
  else
    let cleaned := collapseWS (stripChars document_content)
    let sents := sentencesOf document_content
    let chs := (packAux sents [] 0).map joinSpace
    { chunks := chs, total_length := cleaned.length, chunk_count := chs.length,
      original_length := document_content.length,
      sentence_count := sents.length, has_error := false }

/-- A packed chunk either holds at most 200 words in total or is a single
sentence that alone exceeds 200 words. -/
def chunkOK (g : List (List Char)) : Prop :=
  (g.map sentWC).sum ≤ 200 ∨ ∃ s, g = [s] ∧ 200 < sentWC s

/-! ## Tokenisation and relevance scoring -/

/-- Word characters, the regex class `\w` (ASCII range). -/
def isWordChar (c : Char) : Bool :=
  c.isAlphanum || c = '_'

/-- `set(re.findall(r'\b\w+\b', text.lower()))`: the set of lowercased word
tokens.  `\b\w+\b` matches exactly the maximal `\w` runs. -/
def wordTokens (t : List Char) : Finset (List Char) :=
  (runsAux isWordChar (t.map Char.toLower) []).toFinset

/-- The containment ratio `len(A & B) / len(A) if A else 0` shared by the
chunk-scoring step of `extract_context` and the three sub-scores of
`calculate_relevance`. -/
def ratioQ (A B : Finset (List Char)) : ℚ :=
  if A.card = 0 then 0 else ((A ∩ B).card : ℚ) / (A.card : ℚ)

/-- The score `extract_context` assigns to one chunk:
`overlap / len(question_words) if question_words else 0` where
`overlap = len(question_words & chunk_words)`. -/
def chunkScore (question chunk : List Char) : ℚ :=
  ratioQ (wordTokens question) (wordTokens chunk)

/-- The `for i, chunk in enumerate(...)` loop building `chunk_scores` as
`(index, chunk, score)` triples. -/
def scoreLoop (question : List Char) : Nat → List (List Char) → List (Nat × List Char × ℚ)
  | _, [] => []
  | i, ch :: rest => (i, ch, chunkScore question ch) :: scoreLoop question (i + 1) rest

/-- Stable insertion into a descending-by-score list: the inserted element
goes after every already-placed element of greater or equal score.  This is
the per-element behaviour of Python's stable `list.sort(key=..., reverse=True)`. -/
def insertD (x : Nat × List Char × ℚ) :
    List (Nat × List Char × ℚ) → List (Nat × List Char × ℚ)
  | [] => [x]
  | y :: ys => if y.2.2 ≤ x.2.2 then x :: y :: ys else y :: insertD x ys

/-- `chunk_scores.sort(key=lambda x: x[2], reverse=True)` as a stable
descending sort.  Python guarantees `list.sort` is stable, including with
`reverse=True`; any stable descending sort computes the same list. -/
def sortD : List (Nat × List Char × ℚ) → List (Nat × List Char × ℚ)
  | [] => []
  | x :: xs => insertD x (sortD xs)

/-! ## Context extraction -/

/-- One conversation turn; `msg.get("role", "user")` / `msg.get("content", "")`
are modelled as always-present fields. -/
structure ChatMsg where
  role : List Char
  content : List Char
deriving DecidableEq

/-- Python `str.title()`: uppercase every character that follows a
non-alphabetic character, lowercase the rest. -/
def titleAux : List Char → Bool → List Char
  | [], _ => []
  | c :: rest, prevAlpha =>
    (if prevAlpha then c.toLower else c.toUpper) :: titleAux rest c.isAlpha

def titleCase (s : List Char) : List Char := titleAux s false

/-- The chat-history formatting block of `extract_context`: empty for an
empty history, otherwise a fixed header followed by a
`f"{role.title()}: {content}\n"` line for each of the last 3 messages. -/
def formatHistory (hist : List ChatMsg) : List Char :=
  if hist.isEmpty then []
  else
    strL "\n\nPrevious conversation context:\n" ++
      (hist.drop (hist.length - 3)).flatMap
        (fun m => titleCase m.role ++ strL ": " ++ m.content ++ strL "\n")

/-- Python `'\n\n'.join(pieces)`. -/
def joinBlank : List (List Char) → List Char
  | [] => []
  | [p] => p
  | p :: q :: rest => p ++ strL "\n\n" ++ joinBlank (q :: rest)

/-- The fixed context returned for a document with no chunks. -/
def noContentMsg : List Char := strL "No document content available for analysis."

/-- `chunk_scores` sorted descending, truncated to the top 3
(`relevant_chunks = chunk_scores[:3]`). -/
def topChunks (pd : ProcessedDoc) (question : List Char) :
    List (Nat × List Char × ℚ) :=
  (sortD (scoreLoop question 0 pd.chunks)).take 3

/-- The list comprehension
`[chunk[1] for chunk in relevant_chunks if chunk[2] > 0]`. -/
def posPieces (pd : ProcessedDoc) (question : List Char) : List (List Char) :=
  ((topChunks pd question).filter
    (fun t => decide ((0 : ℚ) < t.2.2))).map (fun t => t.2.1)

/-- `context_pieces`: the texts of the top chunks with positive score, or
the document's first two chunks when none scores positively
(`if not context_pieces: context_pieces = processed_doc["chunks"][:2]`). -/
def contextPieces (pd : ProcessedDoc) (question : List Char) : List (List Char) :=
  if (posPieces pd question).isEmpty then pd.chunks.take 2
  else posPieces pd question

/-- The result dictionary of `extract_context`; `relevant_chunks` keeps the
`index`/`score` pairs of its dictionaries. -/
structure ContextBundle where
  context : List Char
  relevant_chunks : List (Nat × ℚ)
  formatted_history : List Char
  relevance_score : ℚ
deriving DecidableEq

/-- `extract_context(processed_doc, question, chat_history)`. -/
def extract_context (processed_doc : ProcessedDoc) (question : List Char)
    (chat_history : List ChatMsg) : ContextBundle :=
  if processed_doc.chunks.isEmpty then
    { context := noContentMsg, relevant_chunks := [],
      formatted_history := [], relevance_score := 0 }
  else
    { context := joinBlank (contextPieces processed_doc question),
      relevant_chunks := (topChunks processed_doc question).map (fun t => (t.1, t.2.2)),
      formatted_history := formatHistory chat_history,
      relevance_score :=
        match (topChunks processed_doc question).map (fun t => t.2.2) with
        | [] => 0
        | s :: ss => ss.foldl max s }

/-! ## Source extraction -/

/-- `prefixOf n h`: does `n` occur at the start of `h`? -/
def prefixOf : List Char → List Char → Bool
  | [], _ => true
  | _ :: _, [] => false
  | a :: as, b :: bs => a == b && prefixOf as bs

/-- Python substring containment `needle in hay` for strings. -/
def substrOf : List Char → List Char → Bool
  | n, [] => prefixOf n []
  | n, c :: rest => prefixOf n (c :: rest) || substrOf n rest

/-- The `for i, chunk in enumerate(...)` loop of `extract_sources` collecting
the 1-indexed numbers of the chunks whose `chunk.strip()` occurs in the
context. -/
def usedChunksAux (ctx : List Char) : Nat → List (List Char) → List Nat
  | _, [] => []
  | i, ch :: rest =>
    if substrOf (stripChars ch) ctx then (i + 1) :: usedChunksAux ctx (i + 1) rest
    else usedChunksAux ctx (i + 1) rest

def usedChunks (chunks : List (List Char)) (ctx : List Char) : List Nat :=
  usedChunksAux ctx 0 chunks

/-- The inner window scan of `extract_sources`:
`for i in range(len(words) - 4): phrase = ' '.join(words[i:i+5]); if phrase in context.lower(): ...`. -/
def hasWindow (ws : List (List Char)) (ctx : List Char) : Bool :=
  (List.range (ws.length - 4)).any
    (fun i => substrOf (joinSpace ((ws.drop i).take 5)) (ctx.map Char.toLower))

/-- The per-sentence flagging test of `extract_sources`: the stripped
sentence has more than 20 characters, its lowercased whitespace split has at
least 5 words, and some 5-word window occurs in the lowercased context. -/
def quoteHit (ctx t : List Char) : Bool :=
  decide (20 < t.length) &&
    (decide (5 ≤ (wordsOf (t.map Char.toLower)).length) &&
      hasWindow (wordsOf (t.map Char.toLower)) ctx)

/-- `potential_quotes`: the answer is split on sentence terminators, each
fragment stripped, and the fragment is collected when `quoteHit` holds (the
`break` in the source only stops the window scan after the first hit, so each
qualifying sentence is appended exactly once). -/
def potentialQuotes (answer ctx : List Char) : List (List Char) :=
  ((splitTerm answer).map stripChars).filter (quoteHit ctx)

/-- The data interpolated into the `**Sources:**` report string of
`extract_sources`: the early-return marker for a chunkless document, the
1-indexed used chunks, the number of potential direct references, and the
echoed chunk count. -/
structure SourcesRpt where
  no_sources : Bool
  used : List Nat
  quote_count : Nat
  chunk_count : Nat
deriving DecidableEq

/-- The `try`-body of `extract_sources`; every operation in it is total, so
it never produces an error. -/
def sourcesBody (pd : ProcessedDoc) (ctx answer : List Char) :
    Except (List Char) SourcesRpt :=
  if pd.chunks.isEmpty then
    Except.ok { no_sources := true, used := [], quote_count := 0, chunk_count := 0 }
  else
    Except.ok { no_sources := false, used := usedChunks pd.chunks ctx,
                quote_count := (potentialQuotes answer ctx).length,
                chunk_count := pd.chunk_count }

/-- `extract_sources(processed_doc, context, answer)` with its
`except Exception` boundary: an error in the body would be converted to the
error report string (`Sum.inl`); a normal run returns the report data
(`Sum.inr`). -/
def extract_sources (pd : ProcessedDoc) (ctx answer : List Char) :
    List Char ⊕ SourcesRpt :=
  match sourcesBody pd ctx answer with
  | Except.ok r => Sum.inr r
  | Except.error e =>
      Sum.inl (strL "**Sources:** Error extracting source information: " ++ e)

/-! ## Relevance calculation -/

/-- The fixed stop-word set of `calculate_relevance`. -/
def stopWords : Finset (List Char) :=
  { strL "the", strL "a", strL "an", strL "and", strL "or", strL "but",
    strL "in", strL "on", strL "at", strL "to", strL "for", strL "of",
    strL "with", strL "by" }

/-- Word tokens minus stop words, e.g. `question_words - stop_words`. -/
def tokensNoStop (t : List Char) : Finset (List Char) :=
  wordTokens t \ stopWords

/-- Float division, the one fallible primitive in the `try`-body of
`calculate_relevance`: raises `ZeroDivisionError` on a zero denominator. -/
def checkedDivQ (n d : Nat) : Except (List Char) ℚ :=
  if d = 0 then Except.error (strL "division by zero")
  else Except.ok ((n : ℚ) / (d : ℚ))

/-- The guarded ratio `len(A & B) / len(A) if A else 0` inside the
`try`-body, with the division kept fallible. -/
def ratioE (A B : Finset (List Char)) : Except (List Char) ℚ :=
  if A.card = 0 then Except.ok 0 else checkedDivQ (A ∩ B).card A.card

/-- The relevance bucket of `calculate_relevance`. -/
inductive RelCategory
  | High
  | Medium
  | Low
deriving DecidableEq

/-- The data interpolated into the relevance report string: the three
sub-scores, the weighted overall score, the rounded percentage and the
bucket. -/
structure RelReport where
  qa_score : ℚ
  ac_score : ℚ
  qc_score : ℚ
  overall : ℚ
  percentage : ℚ
  category : RelCategory
deriving DecidableEq

/-- Round half to even to an integer, the rounding mode of Python's
`round`. -/
def roundHE (x : ℚ) : ℤ :=
  if x - Int.floor x < 1 / 2 then Int.floor x
  else if 1 / 2 < x - Int.floor x then Int.floor x + 1
  else if Int.floor x % 2 = 0 then Int.floor x else Int.floor x + 1

/-- Python `round(x, 1)` modelled exactly on rationals. -/
def roundTenth (x : ℚ) : ℚ := (roundHE (x * 10) : ℚ) / 10

/-- The `try`-body of `calculate_relevance`: tokenize the three texts,
remove stop words, form the three containment ratios, combine them with
weights 0.4/0.4/0.2, convert to a rounded percentage and bucket it. -/
def relevanceBody (question answer ctx : List Char) :
    Except (List Char) RelReport := do
  let qws := tokensNoStop question
  let aws := tokensNoStop answer
  let cws := tokensNoStop ctx
  let qa ← ratioE qws aws
  let ac ← ratioE aws cws
  let qc ← ratioE qws cws
  let overall := qa * (0.4 : ℚ) + ac * (0.4 : ℚ) + qc * (0.2 : ℚ)
  let percentage := roundTenth (overall * 100)
  let category :=
    if (70 : ℚ) ≤ percentage then RelCategory.High
    else if (50 : ℚ) ≤ percentage then RelCategory.Medium
    else RelCategory.Low
  Except.ok { qa_score := qa, ac_score := ac, qc_score := qc,
              overall := overall, percentage := percentage, category := category }

/-- `calculate_relevance(question, answer, context)` with its
`except Exception` boundary: an error in the body would be converted to the
error report string (`Sum.inl`); a normal run returns the report data
(`Sum.inr`). -/
def calculate_relevance (question answer ctx : List Char) :
    List Char ⊕ RelReport :=
  match relevanceBody question answer ctx with
  | Except.ok r => Sum.inr r
  | Except.error e => Sum.inl (strL "Relevance calculation error: " ++ e)

/-- Lexicographic "comes strictly before" order of a stable descending
sort: either a strictly greater score, or an equal score and a smaller
original index. -/
def lexAfter (a b : Nat × List Char × ℚ) : Prop :=
  b.2.2 < a.2.2 ∨ (a.2.2 = b.2.2 ∧ a.1 < b.1)

/-! ## Packing lemmas -/

theorem packAux_flatten (ss : List (List Char)) :
    ∀ cur wc, (packAux ss cur wc).flatten = cur ++ ss := by
  induction ss with
  | nil =>
    intro cur wc
    simp only [packAux]
    split
    · simp_all [List.isEmpty_iff]
    · simp
  | cons s rest ih =>
    intro cur wc
    simp only [packAux]
    split
    · simp [ih]
    · simp [ih]

theorem packAux_ne_nil (ss : List (List Char)) :
    ∀ cur wc g, g ∈ packAux ss cur wc → g ≠ [] := by
  induction ss with
  | nil =>
    intro cur wc g hg
    simp only [packAux] at hg
    split at hg
    · simp at hg
    · rename_i hcur
      simp only [List.mem_singleton] at hg
      subst hg
      simpa [List.isEmpty_iff] using hcur
  | cons s rest ih =>
    intro cur wc g hg
    simp only [packAux] at hg
    split at hg
    · rename_i hcond
      rcases List.mem_cons.mp hg with h | h
      · subst h; exact hcond.2
      · exact ih [s] (sentWC s) g h
    · exact ih (cur ++ [s]) (wc + sentWC s) g hg

theorem chunkOK_single (s : List Char) : chunkOK [s] := by
  by_cases h : 200 < sentWC s
  · exact Or.inr ⟨s, rfl, h⟩
  · left
    simp only [List.map_cons, List.map_nil, List.sum_cons, List.sum_nil, Nat.add_zero]
    omega

theorem packAux_chunkOK (ss : List (List Char)) :
    ∀ cur, chunkOK cur →
      ∀ g ∈ packAux ss cur ((cur.map sentWC).sum), chunkOK g := by
  induction ss with
  | nil =>
    intro cur hcur g hg
    simp only [packAux] at hg
    split at hg
    · simp at hg
    · simp only [List.mem_singleton] at hg
      subst hg
      exact hcur
  | cons s rest ih =>
    intro cur hcur g hg
    simp only [packAux] at hg
    split at hg
    · rcases List.mem_cons.mp hg with h | h
      · subst h; exact hcur
      · have h1 : ([s].map sentWC).sum = sentWC s := by simp
        exact ih [s] (chunkOK_single s) g (h1 ▸ h)
    · rename_i hcond
      have hsum : ((cur ++ [s]).map sentWC).sum = (cur.map sentWC).sum + sentWC s := by
        simp
      have hok : chunkOK (cur ++ [s]) := by
        rcases Decidable.not_and_iff_or_not.mp hcond with h200 | hnil
        · left
          rw [hsum]
          omega
        · have : cur = [] := by
            by_contra hne
            exact hnil hne
          subst this
          simpa using chunkOK_single s
      exact ih (cur ++ [s]) hok g (hsum ▸ hg)

/-! ## Word-count lemmas -/

theorem runsAux_sep {p : Char → Bool} {c0 : Char} (hc : p c0 = false)
    (b : List Char) :
    ∀ a cur, runsAux p (a ++ c0 :: b) cur = runsAux p a cur ++ runsAux p b [] := by
  intro a
  induction a with
  | nil =>
    intro cur
    by_cases h : cur.isEmpty
    · simp [runsAux, hc, h]
    · simp [runsAux, hc, h]
  | cons c a ih =>
    intro cur
    by_cases h : p c
    · simp [runsAux, h, ih]
    · by_cases h2 : cur.isEmpty
      · simp [runsAux, h, h2, ih]
      · simp [runsAux, h, h2, ih]

theorem wordsOf_joinSpace (g : List (List Char)) :
    (wordsOf (joinSpace g)).length = (g.map sentWC).sum := by
  induction g with
  | nil => simp [joinSpace, wordsOf, runsAux]
  | cons s rest ih =>
    cases rest with
    | nil => simp [joinSpace, sentWC]
    | cons t r =>
      have hsp : (fun c => !isSpaceChar c) ' ' = false := by
        simp [isSpaceChar]
      calc (wordsOf (joinSpace (s :: t :: r))).length
          = (runsAux (fun c => !isSpaceChar c) (s ++ ' ' :: joinSpace (t :: r)) []).length := by
            simp [joinSpace, wordsOf]
        _ = (wordsOf s).length + (wordsOf (joinSpace (t :: r))).length := by
            rw [runsAux_sep hsp]
            simp [wordsOf]
        _ = ((s :: t :: r).map sentWC).sum := by
            rw [ih]
            simp [sentWC]

/-! ## Facts about `preprocess_document` -/

theorem preprocess_chunks_eq (doc : List Char)
    (h : (stripChars doc).isEmpty = false) :
    (preprocess_document doc).chunks = (packAux (sentencesOf doc) [] 0).map joinSpace := by
  simp [preprocess_document, h]

theorem sentencesOf_ne_nil_mem (doc : List Char) :
    ∀ s ∈ sentencesOf doc, s ≠ [] := by
  intro s hs
  have := (List.mem_filter.mp hs).2
  simpa [List.isEmpty_iff] using this

theorem preprocess_chunk_ne_nil (doc : List Char) :
    ∀ ch ∈ (preprocess_document doc).chunks, ch ≠ [] := by
  intro ch hch
  by_cases h : (stripChars doc).isEmpty
  · simp [preprocess_document, h] at hch
  · rw [preprocess_chunks_eq doc (by simpa using h)] at hch
    rcases List.mem_map.mp hch with ⟨g, hg, hj⟩
    have hgne : g ≠ [] := packAux_ne_nil _ [] 0 g hg
    rcases g with _ | ⟨s, g'⟩
    · exact absurd rfl hgne
    · have hsmem : s ∈ sentencesOf doc := by
        have : s ∈ (packAux (sentencesOf doc) [] 0).flatten :=
          List.mem_flatten.mpr ⟨s :: g', hg, List.mem_cons_self s g'⟩
        simpa [packAux_flatten] using this
      have hsne : s ≠ [] := sentencesOf_ne_nil_mem doc s hsmem
      cases g' with
      | nil =>
        subst hj
        simpa [joinSpace] using hsne
      | cons t r =>
        subst hj
        simp [joinSpace]

/-! ## Claims C1 and C2 -/

/-- **C1.** For every non-empty (not whitespace-only) document text,
`preprocess_document` is total (it is a Lean function) and the concatenation
of its chunks, read as a sentence sequence, is exactly the cleaned
(whitespace-collapsed, sentence-split, empty-fragment-discarded) sentence
sequence of the input, in order: the chunks are precisely the space-joins of
the groups produced by the packing loop and those groups flatten, in order,
to the full cleaned sentence sequence — so no sentence is split across two
chunks. -/
theorem C1_chunks_reconstruct (doc : List Char) (h : stripChars doc ≠ []) :
    (packAux (sentencesOf doc) [] 0).flatten = sentencesOf doc ∧
      (preprocess_document doc).chunks
        = (packAux (sentencesOf doc) [] 0).map joinSpace := by
  constructor
  · simpa using packAux_flatten (sentencesOf doc) [] 0
  · exact preprocess_chunks_eq doc (by simpa [List.isEmpty_iff] using h)

theorem C1_chunks_reconstruct_witness :
    stripChars (strL "Hi there. Bye now.") ≠ [] ∧
      ((packAux (sentencesOf (strL "Hi there. Bye now.")) [] 0).flatten
          = sentencesOf (strL "Hi there. Bye now.") ∧
        (preprocess_document (strL "Hi there. Bye now.")).chunks
          = (packAux (sentencesOf (strL "Hi there. Bye now.")) [] 0).map joinSpace) :=
  ⟨by decide, C1_chunks_reconstruct (strL "Hi there. Bye now.") (by decide)⟩

/-- **C2.** Every chunk produced by `preprocess_document` has a
whitespace-split word count of at most 200, except a chunk consisting of a
single sentence that alone exceeds 200 words, in which case that sentence
occupies its own chunk. -/
theorem C2_chunk_word_bound (doc : List Char) :
    ∀ ch ∈ (preprocess_document doc).chunks,
      (wordsOf ch).length ≤ 200 ∨
        ∃ s, s ∈ sentencesOf doc ∧ ch = s ∧ 200 < (wordsOf s).length := by
  intro ch hch
  by_cases h : (stripChars doc).isEmpty
  · simp [preprocess_document, h] at hch
  · rw [preprocess_chunks_eq doc (by simpa using h)] at hch
    rcases List.mem_map.mp hch with ⟨g, hg, hj⟩
    have hok : chunkOK g := by
      have := packAux_chunkOK (sentencesOf doc) [] (by simp [chunkOK]) g
      exact this (by simpa using hg)
    rcases hok with hle | ⟨s, hgs, hbig⟩
    · left
      rw [← hj, wordsOf_joinSpace]
      exact hle
    · right
      refine ⟨s, ?_, ?_, hbig⟩
      · have : s ∈ (packAux (sentencesOf doc) [] 0).flatten :=
          List.mem_flatten.mpr ⟨g, hg, by simp [hgs]⟩
        simpa [packAux_flatten] using this
      · rw [← hj, hgs]
        simp [joinSpace]

theorem C2_chunk_word_bound_witness :
    (strL "Hi there Bye now") ∈ (preprocess_document (strL "Hi there. Bye now.")).chunks ∧
      ((wordsOf (strL "Hi there Bye now")).length ≤ 200 ∨
        ∃ s, s ∈ sentencesOf (strL "Hi there. Bye now.") ∧
          strL "Hi there Bye now" = s ∧ 200 < (wordsOf s).length) :=
  ⟨by decide,
    C2_chunk_word_bound (strL "Hi there. Bye now.") (strL "Hi there Bye now") (by decide)⟩


/-! ## Stable sorting lemmas -/

theorem insertD_perm (x : Nat × List Char × ℚ) :
    ∀ l, List.Perm (insertD x l) (x :: l) := by
  intro l
  induction l with
  | nil => simp [insertD]
  | cons y ys ih =>
    simp only [insertD]
    split
    · exact List.Perm.refl _
    · exact List.Perm.trans (List.Perm.cons y ih) (List.Perm.swap x y ys)

theorem sortD_perm : ∀ l, List.Perm (sortD l) l := by
  intro l
  induction l with
  | nil => simp [sortD]
  | cons x xs ih =>
    exact List.Perm.trans (insertD_perm x (sortD xs)) (List.Perm.cons x ih)

theorem mem_insertD {x z : Nat × List Char × ℚ} {l : List (Nat × List Char × ℚ)}
    (h : z ∈ insertD x l) : z = x ∨ z ∈ l := by
  have := (insertD_perm x l).mem_iff.mp h
  simpa using this

theorem insertD_pairwise (x : Nat × List Char × ℚ) :
    ∀ l, List.Pairwise lexAfter l → (∀ y ∈ l, x.1 < y.1) →
      List.Pairwise lexAfter (insertD x l) := by
  intro l
  induction l with
  | nil =>
    intro _ _
    simp [insertD]
  | cons y ys ih =>
    intro hp hidx
    rcases List.pairwise_cons.mp hp with ⟨hy, hys⟩
    simp only [insertD]
    split
    · rename_i hle
      refine List.pairwise_cons.mpr ⟨?_, hp⟩
      intro z hz
      rcases List.mem_cons.mp hz with hzy | hzys
      · subst hzy
        rcases lt_or_eq_of_le hle with h | h
        · exact Or.inl h
        · exact Or.inr ⟨h.symm, hidx z (List.mem_cons_self z ys)⟩
      · have hzler : z.2.2 ≤ y.2.2 := by
          rcases hy z hzys with h | h
          · exact le_of_lt h
          · exact le_of_eq h.1.symm
        rcases lt_or_eq_of_le (le_trans hzler hle) with h | h
        · exact Or.inl h
        · exact Or.inr ⟨h.symm, hidx z (List.mem_cons_of_mem y hzys)⟩
    · rename_i hgt
      push_neg at hgt
      refine List.pairwise_cons.mpr ⟨?_, ?_⟩
      · intro z hz
        rcases mem_insertD hz with hzx | hzys
        · subst hzx
          exact Or.inl hgt
        · exact hy z hzys
      · exact ih hys (fun z hz => hidx z (List.mem_cons_of_mem y hz))

theorem sortD_pairwise :
    ∀ l, List.Pairwise (fun a b => a.1 < b.1) l →
      List.Pairwise lexAfter (sortD l) := by
  intro l
  induction l with
  | nil =>
    intro _
    simp [sortD]
  | cons x xs ih =>
    intro hp
    rcases List.pairwise_cons.mp hp with ⟨hx, hxs⟩
    refine insertD_pairwise x (sortD xs) (ih hxs) ?_
    intro y hy
    exact hx y ((sortD_perm xs).mem_iff.mp hy)

/-! ## Facts about `scoreLoop` -/

theorem scoreLoop_idx_le (question : List Char) :
    ∀ chs i t, t ∈ scoreLoop question i chs → i ≤ t.1 := by
  intro chs
  induction chs with
  | nil =>
    intro i t ht
    simp [scoreLoop] at ht
  | cons ch rest ih =>
    intro i t ht
    rcases List.mem_cons.mp ht with h | h
    · subst h; exact le_refl i
    · exact le_trans (Nat.le_succ i) (ih (i + 1) t h)

theorem scoreLoop_mem (question : List Char) :
    ∀ chs i t, t ∈ scoreLoop question i chs →
      t.2.1 ∈ chs ∧ t.2.2 = chunkScore question t.2.1 := by
  intro chs
  induction chs with
  | nil =>
    intro i t ht
    simp [scoreLoop] at ht
  | cons ch rest ih =>
    intro i t ht
    rcases List.mem_cons.mp ht with h | h
    · subst h
      exact ⟨List.mem_cons_self ch rest, rfl⟩
    · rcases ih (i + 1) t h with ⟨h1, h2⟩
      exact ⟨List.mem_cons_of_mem ch h1, h2⟩

theorem scoreLoop_pairwise (question : List Char) :
    ∀ chs i, List.Pairwise (fun a b => a.1 < b.1) (scoreLoop question i chs) := by
  intro chs
  induction chs with
  | nil =>
    intro i
    simp [scoreLoop]
  | cons ch rest ih =>
    intro i
    refine List.pairwise_cons.mpr ⟨?_, ih (i + 1)⟩
    intro t ht
    exact lt_of_lt_of_le (Nat.lt_succ_self i) (scoreLoop_idx_le question rest (i + 1) t ht)

/-! ## Claim C5 -/

/-- **C5.** For a fixed processed document, question and chat history,
`extract_context` is deterministic and idempotent (as a function, repeated
calls return the identical bundle, and the reported chunk order is the top-3
truncation of the one sorted list), the sorted score list is a permutation
of the scored chunks, its scores are descending, and chunks with equal
scores keep their original (document) relative order. -/
theorem C5_stable_selection (pd : ProcessedDoc) (question : List Char)
    (hist : List ChatMsg) :
    extract_context pd question hist = extract_context pd question hist ∧
      (extract_context pd question hist).relevant_chunks
          = (topChunks pd question).map (fun t => (t.1, t.2.2)) ∧
      List.Perm (sortD (scoreLoop question 0 pd.chunks)) (scoreLoop question 0 pd.chunks) ∧
      List.Pairwise (fun a b => b.2.2 ≤ a.2.2) (sortD (scoreLoop question 0 pd.chunks)) ∧
      List.Pairwise (fun a b => a.2.2 = b.2.2 → a.1 < b.1)
        (sortD (scoreLoop question 0 pd.chunks)) := by
  have hlex : List.Pairwise lexAfter (sortD (scoreLoop question 0 pd.chunks)) :=
    sortD_pairwise _ (scoreLoop_pairwise question pd.chunks 0)
  refine ⟨rfl, ?_, sortD_perm _, ?_, ?_⟩
  · by_cases h : pd.chunks.isEmpty
    · have : pd.chunks = [] := by simpa [List.isEmpty_iff] using h
      simp [extract_context, h, topChunks, this, scoreLoop, sortD]
    · simp [extract_context, h]
  · refine hlex.imp ?_
    intro a b hab
    rcases hab with h | h
    · exact le_of_lt h
    · exact le_of_eq h.1.symm
  · refine hlex.imp ?_
    intro a b hab heq
    rcases hab with h | h
    · exact absurd heq (ne_of_gt h)
    · exact h.2

/-! ## Claim C7: the containment ratio is safe -/

theorem ratioE_ok (A B : Finset (List Char)) :
    ratioE A B = Except.ok (ratioQ A B) := by
  by_cases h : A.card = 0 <;> simp [ratioE, checkedDivQ, ratioQ, h]

/-- **C7.** The containment ratio `|A ∩ B| / |A|` is always in `[0, 1]`,
is `0` (with no division-by-zero error) when `A` is empty, and its fallible
version — the division actually executed inside `calculate_relevance` —
always returns normally with the same value.  `chunkScore` in
`extract_context` and the three sub-scores of `calculate_relevance` are
exactly `ratioQ`/`ratioE` applied to the respective token sets. -/
theorem C7_ratio_bounds (A B : Finset (List Char)) :
    0 ≤ ratioQ A B ∧ ratioQ A B ≤ 1 ∧ (A = ∅ → ratioQ A B = 0) ∧
      ratioE A B = Except.ok (ratioQ A B) := by
  refine ⟨?_, ?_, ?_, ratioE_ok A B⟩
  · unfold ratioQ
    split
    · exact le_refl 0
    · positivity
  · unfold ratioQ
    split
    · norm_num
    · rename_i h
      have hpos : (0 : ℚ) < (A.card : ℚ) := by
        exact_mod_cast Nat.pos_of_ne_zero h
      rw [div_le_one hpos]
      exact_mod_cast Finset.card_le_card Finset.inter_subset_left
  · intro hA
    subst hA
    simp [ratioQ]

theorem C7_ratio_bounds_witness :
    0 ≤ ratioQ (wordTokens (strL "hello")) ∅ ∧
      ratioQ (wordTokens (strL "hello")) ∅ ≤ 1 ∧
      (wordTokens (strL "hello") = ∅ → ratioQ (wordTokens (strL "hello")) ∅ = 0) ∧
      ratioE (wordTokens (strL "hello")) ∅
        = Except.ok (ratioQ (wordTokens (strL "hello")) ∅) :=
  C7_ratio_bounds (wordTokens (strL "hello")) ∅

/-! ## Lemmas for the fallback behaviour of `extract_context` -/

theorem ratioQ_empty_right (A : Finset (List Char)) : ratioQ A ∅ = 0 := by
  unfold ratioQ
  split
  · rfl
  · simp

theorem wordTokens_nil : wordTokens [] = ∅ := rfl

theorem chunkScore_nil (question : List Char) : chunkScore question [] = 0 := by
  unfold chunkScore
  rw [wordTokens_nil, ratioQ_empty_right]

theorem ne_nil_of_chunkScore_pos {question ch : List Char}
    (h : 0 < chunkScore question ch) : ch ≠ [] := by
  intro hnil
  subst hnil
  rw [chunkScore_nil] at h
  exact lt_irrefl 0 h

theorem contextPieces_all_zero (pd : ProcessedDoc) (question : List Char)
    (hz : ∀ ch ∈ pd.chunks, chunkScore question ch = 0) :
    contextPieces pd question = pd.chunks.take 2 := by
  have hfil : (topChunks pd question).filter (fun t => decide ((0 : ℚ) < t.2.2)) = [] := by
    rw [List.filter_eq_nil_iff]
    intro t ht
    have hts : t ∈ sortD (scoreLoop question 0 pd.chunks) :=
      List.mem_of_mem_take ht
    have htm := (sortD_perm _).mem_iff.mp hts
    rcases scoreLoop_mem question pd.chunks 0 t htm with ⟨h1, h2⟩
    simp [h2, hz t.2.1 h1]
  simp [contextPieces, posPieces, hfil]

theorem extract_context_context (pd : ProcessedDoc) (question : List Char)
    (hist : List ChatMsg) (h : pd.chunks.isEmpty = false) :
    (extract_context pd question hist).context
      = joinBlank (contextPieces pd question) := by
  simp [extract_context, h]

theorem joinBlank_ne_nil :
    ∀ ps, ps ≠ [] → (∀ p ∈ ps, p ≠ []) → joinBlank ps ≠ [] := by
  intro ps
  match ps with
  | [] => intro h _; exact absurd rfl h
  | [p] =>
    intro _ hall
    simpa [joinBlank] using hall p (List.mem_singleton_self p)
  | p :: q :: rest =>
    intro _ hall
    have hp : p ≠ [] := hall p (List.mem_cons_self p (q :: rest))
    simp [joinBlank, hp]

theorem contextPieces_props (doc question : List Char)
    (h : (preprocess_document doc).chunks ≠ []) :
    contextPieces (preprocess_document doc) question ≠ [] ∧
      ∀ p ∈ contextPieces (preprocess_document doc) question, p ≠ [] := by
  by_cases hp0 : (posPieces (preprocess_document doc) question).isEmpty
  · rw [contextPieces, if_pos hp0]
    constructor
    · rcases hch : (preprocess_document doc).chunks with _ | ⟨c, rest⟩
      · exact absurd hch h
      · simp [hch]
    · intro p hp
      exact preprocess_chunk_ne_nil doc p (List.mem_of_mem_take hp)
  · rw [contextPieces, if_neg hp0]
    constructor
    · simpa [List.isEmpty_iff] using hp0
    · intro p hp
      have hp2 : ∃ a x, (a, p, x) ∈ topChunks (preprocess_document doc) question ∧
          (0 : ℚ) < x := by
        simpa [posPieces] using hp
      rcases hp2 with ⟨a, x, htt, hpos⟩
      have hts : (a, p, x) ∈ sortD (scoreLoop question 0 (preprocess_document doc).chunks) :=
        List.mem_of_mem_take htt
      have htm := (sortD_perm _).mem_iff.mp hts
      rcases scoreLoop_mem question (preprocess_document doc).chunks 0 _ htm with ⟨_, h2⟩
      simp only at h2
      rw [h2] at hpos
      exact ne_nil_of_chunkScore_pos hpos

/-! ## Claim C6 -/

/-- **C6.** For every processed document (that is, every output of the
chunker) with at least one chunk: if no chunk scores positively against the
question, `extract_context` uses the document's first two chunks as the
context; and in every case the returned context string is non-empty. -/
theorem C6_fallback_nonempty (doc question : List Char) (hist : List ChatMsg)
    (h : (preprocess_document doc).chunks ≠ []) :
    ((∀ ch ∈ (preprocess_document doc).chunks, chunkScore question ch = 0) →
        (extract_context (preprocess_document doc) question hist).context
          = joinBlank ((preprocess_document doc).chunks.take 2)) ∧
      (extract_context (preprocess_document doc) question hist).context ≠ [] := by
  have hie : (preprocess_document doc).chunks.isEmpty = false := by
    simpa [List.isEmpty_iff] using h
  constructor
  · intro hz
    rw [extract_context_context _ _ hist hie, contextPieces_all_zero _ _ hz]
  · rw [extract_context_context _ _ hist hie]
    rcases contextPieces_props doc question h with ⟨h1, h2⟩
    exact joinBlank_ne_nil _ h1 h2

theorem C6_fallback_nonempty_witness :
    (preprocess_document (strL "Hi there. Bye now.")).chunks ≠ [] ∧
      (((∀ ch ∈ (preprocess_document (strL "Hi there. Bye now.")).chunks,
            chunkScore (strL "zzz") ch = 0) →
          (extract_context (preprocess_document (strL "Hi there. Bye now."))
              (strL "zzz") []).context
            = joinBlank ((preprocess_document (strL "Hi there. Bye now.")).chunks.take 2)) ∧
        (extract_context (preprocess_document (strL "Hi there. Bye now."))
            (strL "zzz") []).context ≠ []) :=
  ⟨by decide, C6_fallback_nonempty (strL "Hi there. Bye now.") (strL "zzz") [] (by decide)⟩

/-! ## Claim C10 -/

/-- **C10.** For a processed document with no chunks, `extract_context`
returns the literal no-content message, an empty relevant-chunk list, empty
formatted history and relevance score `0`, and does so without consulting
the question (the result is the same for every question, so no tokenisation
or chunk scoring can influence it). -/
theorem C10_no_chunks (pd : ProcessedDoc) (question : List Char)
    (hist : List ChatMsg) (h : pd.chunks = []) :
    extract_context pd question hist
        = { context := noContentMsg, relevant_chunks := [],
            formatted_history := [], relevance_score := 0 } ∧
      ∀ q2, extract_context pd q2 hist = extract_context pd question hist := by
  have hie : pd.chunks.isEmpty = true := by simp [h]
  constructor
  · simp [extract_context, hie]
  · intro q2
    simp [extract_context, hie]

theorem C10_no_chunks_witness :
    (preprocess_document (strL " ")).chunks = [] ∧
      (extract_context (preprocess_document (strL " ")) (strL "what") []
          = { context := noContentMsg, relevant_chunks := [],
              formatted_history := [], relevance_score := 0 } ∧
        ∀ q2, extract_context (preprocess_document (strL " ")) q2 []
          = extract_context (preprocess_document (strL " ")) (strL "what") []) :=
  ⟨by decide, C10_no_chunks (preprocess_document (strL " ")) (strL "what") [] (by decide)⟩

/-! ## Claims C8 and C9: relevance weighting, bucketing, and totality -/

theorem except_ok_bind {e a b : Type} (x : a) (f : a → Except e b) :
    (Except.ok x : Except e a) >>= f = f x := rfl

theorem relevanceBody_eq (question answer ctx : List Char) :
    relevanceBody question answer ctx = Except.ok
      { qa_score := ratioQ (tokensNoStop question) (tokensNoStop answer),
        ac_score := ratioQ (tokensNoStop answer) (tokensNoStop ctx),
        qc_score := ratioQ (tokensNoStop question) (tokensNoStop ctx),
        overall := ratioQ (tokensNoStop question) (tokensNoStop answer) * 0.4
          + ratioQ (tokensNoStop answer) (tokensNoStop ctx) * 0.4
          + ratioQ (tokensNoStop question) (tokensNoStop ctx) * 0.2,
        percentage := roundTenth ((ratioQ (tokensNoStop question) (tokensNoStop answer) * 0.4
          + ratioQ (tokensNoStop answer) (tokensNoStop ctx) * 0.4
          + ratioQ (tokensNoStop question) (tokensNoStop ctx) * 0.2) * 100),
        category :=
          if (70 : ℚ) ≤ roundTenth ((ratioQ (tokensNoStop question) (tokensNoStop answer) * 0.4
              + ratioQ (tokensNoStop answer) (tokensNoStop ctx) * 0.4
              + ratioQ (tokensNoStop question) (tokensNoStop ctx) * 0.2) * 100) then
            RelCategory.High
          else if (50 : ℚ) ≤ roundTenth ((ratioQ (tokensNoStop question) (tokensNoStop answer) * 0.4
              + ratioQ (tokensNoStop answer) (tokensNoStop ctx) * 0.4
              + ratioQ (tokensNoStop question) (tokensNoStop ctx) * 0.2) * 100) then
            RelCategory.Medium
          else RelCategory.Low } := by
  simp only [relevanceBody, ratioE_ok, except_ok_bind]

theorem calc_rel_eq (question answer ctx : List Char) (rpt : RelReport)
    (h : relevanceBody question answer ctx = Except.ok rpt) :
    calculate_relevance question answer ctx = Sum.inr rpt := by
  unfold calculate_relevance
  rw [h]

theorem sourcesBody_ok (pd : ProcessedDoc) (ctx answer : List Char) :
    ∃ rpt, sourcesBody pd ctx answer = Except.ok rpt := by
  unfold sourcesBody
  by_cases h : pd.chunks.isEmpty
  · rw [if_pos h]
    exact ⟨_, rfl⟩
  · rw [if_neg h]
    exact ⟨_, rfl⟩

theorem extract_sources_eq (pd : ProcessedDoc) (ctx answer : List Char)
    (rpt : SourcesRpt) (h : sourcesBody pd ctx answer = Except.ok rpt) :
    extract_sources pd ctx answer = Sum.inr rpt := by
  unfold extract_sources
  rw [h]

theorem bucket_high_iff (p : ℚ) :
    (if (70 : ℚ) ≤ p then RelCategory.High
      else if (50 : ℚ) ≤ p then RelCategory.Medium
      else RelCategory.Low) = RelCategory.High ↔ 70 ≤ p := by
  by_cases h1 : (70 : ℚ) ≤ p
  · simp [h1]
  · by_cases h2 : (50 : ℚ) ≤ p <;> simp [h1, h2]

theorem bucket_medium_iff (p : ℚ) :
    (if (70 : ℚ) ≤ p then RelCategory.High
      else if (50 : ℚ) ≤ p then RelCategory.Medium
      else RelCategory.Low) = RelCategory.Medium ↔ 50 ≤ p ∧ p < 70 := by
  by_cases h1 : (70 : ℚ) ≤ p
  · have h3 : ¬p < 70 := not_lt.mpr h1
    simp [h1, h3]
  · by_cases h2 : (50 : ℚ) ≤ p
    · simp [h1, h2, not_le.mp h1]
    · simp [h1, h2]

theorem bucket_low_iff (p : ℚ) :
    (if (70 : ℚ) ≤ p then RelCategory.High
      else if (50 : ℚ) ≤ p then RelCategory.Medium
      else RelCategory.Low) = RelCategory.Low ↔ p < 50 := by
  by_cases h1 : (70 : ℚ) ≤ p
  · have h3 : ¬p < 50 := not_lt.mpr (le_trans (by norm_num) h1)
    simp [h1, h3]
  · by_cases h2 : (50 : ℚ) ≤ p
    · simp [h1, h2, not_lt.mpr h2]
    · simp [h1, h2, not_le.mp h2]

/-- **C8.** `calculate_relevance` combines the three stop-word-filtered
containment sub-scores as the weighted average `0.4·qa + 0.4·ac + 0.2·qc`,
expresses it as a (rounded-to-one-decimal) percentage, and buckets the
expressed percentage as High when at least 70, Medium when at least 50, and
Low otherwise. -/
theorem C8_weighted_bucket (question answer ctx : List Char) (rpt : RelReport)
    (h : calculate_relevance question answer ctx = Sum.inr rpt) :
    rpt.qa_score = ratioQ (tokensNoStop question) (tokensNoStop answer) ∧
      rpt.ac_score = ratioQ (tokensNoStop answer) (tokensNoStop ctx) ∧
      rpt.qc_score = ratioQ (tokensNoStop question) (tokensNoStop ctx) ∧
      rpt.overall = rpt.qa_score * 0.4 + rpt.ac_score * 0.4 + rpt.qc_score * 0.2 ∧
      rpt.percentage = roundTenth (rpt.overall * 100) ∧
      (rpt.category = RelCategory.High ↔ 70 ≤ rpt.percentage) ∧
      (rpt.category = RelCategory.Medium ↔ 50 ≤ rpt.percentage ∧ rpt.percentage < 70) ∧
      (rpt.category = RelCategory.Low ↔ rpt.percentage < 50) := by
  unfold calculate_relevance at h
  rw [relevanceBody_eq] at h
  simp only [Sum.inr.injEq] at h
  subst h
  exact ⟨rfl, rfl, rfl, rfl, rfl, bucket_high_iff _, bucket_medium_iff _, bucket_low_iff _⟩

theorem roundHE_intCast (n : ℤ) : roundHE (n : ℚ) = n := by
  unfold roundHE
  rw [Int.floor_intCast, sub_self]
  norm_num

theorem ratioQ_self_one : ratioQ (tokensNoStop (strL "hi")) (tokensNoStop (strL "hi")) = 1 := by
  have h1 : (tokensNoStop (strL "hi")).card = 1 := by decide
  have h2 : (tokensNoStop (strL "hi") ∩ tokensNoStop (strL "hi")).card = 1 := by decide
  unfold ratioQ
  rw [h1, h2]
  norm_num

theorem roundTenth_hundred : roundTenth ((1 : ℚ) * 100) = 100 := by
  have h : ((1 : ℚ) * 100) * 10 = ((1000 : ℤ) : ℚ) := by norm_num
  unfold roundTenth
  rw [h, roundHE_intCast]
  norm_num

theorem calc_rel_hi :
    calculate_relevance (strL "hi") (strL "hi") (strL "hi") = Sum.inr
      { qa_score := 1, ac_score := 1, qc_score := 1, overall := 1,
        percentage := 100, category := RelCategory.High } := by
  have h := relevanceBody_eq (strL "hi") (strL "hi") (strL "hi")
  rw [ratioQ_self_one] at h
  have hone : (1 : ℚ) * 0.4 + 1 * 0.4 + 1 * 0.2 = 1 := by norm_num
  rw [hone, roundTenth_hundred, if_pos (by norm_num : (70 : ℚ) ≤ 100)] at h
  exact calc_rel_eq _ _ _ _ h

theorem C8_weighted_bucket_witness :
    calculate_relevance (strL "hi") (strL "hi") (strL "hi") = Sum.inr
        { qa_score := 1, ac_score := 1, qc_score := 1, overall := 1,
          percentage := 100, category := RelCategory.High } ∧
      ((1 : ℚ) = ratioQ (tokensNoStop (strL "hi")) (tokensNoStop (strL "hi")) ∧
        (1 : ℚ) = ratioQ (tokensNoStop (strL "hi")) (tokensNoStop (strL "hi")) ∧
        (1 : ℚ) = ratioQ (tokensNoStop (strL "hi")) (tokensNoStop (strL "hi")) ∧
        (1 : ℚ) = 1 * 0.4 + 1 * 0.4 + 1 * 0.2 ∧
        (100 : ℚ) = roundTenth (1 * 100) ∧
        (RelCategory.High = RelCategory.High ↔ (70 : ℚ) ≤ 100) ∧
        (RelCategory.High = RelCategory.Medium ↔ (50 : ℚ) ≤ 100 ∧ (100 : ℚ) < 70) ∧
        (RelCategory.High = RelCategory.Low ↔ (100 : ℚ) < 50)) :=
  ⟨calc_rel_hi,
    C8_weighted_bucket (strL "hi") (strL "hi") (strL "hi")
      { qa_score := 1, ac_score := 1, qc_score := 1, overall := 1,
        percentage := 100, category := RelCategory.High } calc_rel_hi⟩

/-- **C9.** Neither `calculate_relevance` nor `extract_sources` ever
raises: their `try`-bodies always return normally (the only fallible
primitive, the ratio division, is guarded), so for every input the result
is the normal report (`Sum.inr`), and by the definition of the
`except`-boundary any body error would have been converted to the
human-readable error string (`Sum.inl`) rather than propagated. -/
theorem C9_never_raises (question answer ctx : List Char) (pd : ProcessedDoc)
    (sctx sanswer : List Char) :
    (∃ rpt, calculate_relevance question answer ctx = Sum.inr rpt) ∧
      ∃ srpt, extract_sources pd sctx sanswer = Sum.inr srpt := by
  constructor
  · exact ⟨_, calc_rel_eq question answer ctx _ (relevanceBody_eq question answer ctx)⟩
  · obtain ⟨rpt, hr⟩ := sourcesBody_ok pd sctx sanswer
    exact ⟨rpt, extract_sources_eq pd sctx sanswer rpt hr⟩


/-! ## Claim C3: the potential-reference flag -/

/-- **C3 (counterexample).** The claim states that a sentence is flagged as
a potential reference iff it has at least 20 *words*, at least 5 tokens and
a matching 5-word window.  The code instead tests `len(sentence) > 20`,
which counts *characters*: a 5-word, 29-character sentence whose window
matches is flagged although it has fewer than 20 words, refuting the
claimed equivalence. -/
theorem C3_counterexample :
    ¬ ((strL "alpha bravo charlie delta echo" ∈
          potentialQuotes (strL "alpha bravo charlie delta echo")
            (strL "alpha bravo charlie delta echo")) ↔
        (20 ≤ (wordsOf (strL "alpha bravo charlie delta echo")).length ∧
          5 ≤ (wordsOf ((strL "alpha bravo charlie delta echo").map Char.toLower)).length ∧
          hasWindow (wordsOf ((strL "alpha bravo charlie delta echo").map Char.toLower))
            (strL "alpha bravo charlie delta echo") = true)) := by
  decide

/-- **C3 (amended).** A sentence of the answer (split on sentence-terminal
punctuation, then trimmed) is flagged as a potential reference iff its
trimmed text is longer than 20 *characters*, its lowercased
whitespace-split word list has at least 5 words, and some 5-word window of
those words, joined by single spaces, appears verbatim as a substring of
the lowercased context. -/
theorem C3_flag_characterisation (answer ctx s : List Char) :
    s ∈ potentialQuotes answer ctx ↔
      ((∃ f ∈ splitTerm answer, stripChars f = s) ∧ 20 < s.length ∧
        5 ≤ (wordsOf (s.map Char.toLower)).length ∧
        ∃ i < (wordsOf (s.map Char.toLower)).length - 4,
          substrOf (joinSpace (((wordsOf (s.map Char.toLower)).drop i).take 5))
            (ctx.map Char.toLower) = true) := by
  unfold potentialQuotes
  rw [List.mem_filter]
  simp only [List.mem_map, quoteHit, hasWindow, List.any_eq_true, List.mem_range,
    Bool.and_eq_true, decide_eq_true_eq]

/-! ## Claim C4: the used-chunk report -/

theorem usedChunksAux_mem (ctx : List Char) :
    ∀ chs j k, k ∈ usedChunksAux ctx j chs ↔
      ∃ m, m < chs.length ∧ k = j + m + 1 ∧
        substrOf (stripChars (chs.getD m [])) ctx = true := by
  intro chs
  induction chs with
  | nil =>
    intro j k
    simp [usedChunksAux]
  | cons ch rest ih =>
    intro j k
    simp only [usedChunksAux]
    split
    · rename_i hsub
      constructor
      · intro hk
        rcases List.mem_cons.mp hk with h | h
        · exact ⟨0, by simp, by omega, by simpa using hsub⟩
        · rcases (ih (j + 1) k).mp h with ⟨m, hm, hk2, hs⟩
          exact ⟨m + 1, by simpa using Nat.succ_lt_succ hm, by omega, by simpa using hs⟩
      · rintro ⟨m, hm, hk2, hs⟩
        cases m with
        | zero =>
          have : k = j + 1 := by omega
          subst this
          exact List.mem_cons_self _ _
        | succ m2 =>
          refine List.mem_cons_of_mem _ ((ih (j + 1) k).mpr ⟨m2, ?_, by omega, ?_⟩)
          · simpa using Nat.lt_of_succ_lt_succ hm
          · simpa using hs
    · rename_i hsub
      rw [ih (j + 1) k]
      constructor
      · rintro ⟨m, hm, hk2, hs⟩
        exact ⟨m + 1, by simpa using Nat.succ_lt_succ hm, by omega, by simpa using hs⟩
      · rintro ⟨m, hm, hk2, hs⟩
        cases m with
        | zero =>
          exact absurd (by simpa using hs) hsub
        | succ m2 =>
          exact ⟨m2, by simpa using Nat.lt_of_succ_lt_succ hm, by omega, by simpa using hs⟩

/-- **C4.** For a processed document with a non-empty chunk list,
`extract_sources` returns the normal report, and a chunk's 1-indexed number
is listed among the used chunks iff the chunk's trimmed text is a literal
substring of the supplied context. -/
theorem C4_used_iff (pd : ProcessedDoc) (ctx answer : List Char) (i : Nat)
    (h1 : pd.chunks ≠ []) (h2 : i < pd.chunks.length) :
    ∃ rpt, extract_sources pd ctx answer = Sum.inr rpt ∧
      ((i + 1) ∈ rpt.used ↔ substrOf (stripChars (pd.chunks.getD i [])) ctx = true) := by
  have hie : pd.chunks.isEmpty = false := by simpa [List.isEmpty_iff] using h1
  have hrpt : extract_sources pd ctx answer = Sum.inr
      { no_sources := false, used := usedChunks pd.chunks ctx,
        quote_count := (potentialQuotes answer ctx).length,
        chunk_count := pd.chunk_count } := by
    refine extract_sources_eq pd ctx answer _ ?_
    unfold sourcesBody
    rw [hie]
    simp
  refine ⟨_, hrpt, ?_⟩
  show (i + 1) ∈ usedChunks pd.chunks ctx ↔ _
  unfold usedChunks
  rw [usedChunksAux_mem]
  constructor
  · rintro ⟨m, hm, hk, hs⟩
    have : m = i := by omega
    subst this
    exact hs
  · intro hs
    exact ⟨i, h2, by omega, hs⟩

theorem C4_used_iff_witness :
    (preprocess_document (strL "Hi there. Bye now.")).chunks ≠ [] ∧
      0 < (preprocess_document (strL "Hi there. Bye now.")).chunks.length ∧
      ∃ rpt, extract_sources (preprocess_document (strL "Hi there. Bye now."))
          (strL "Hi there Bye now") (strL "ok") = Sum.inr rpt ∧
        ((0 + 1) ∈ rpt.used ↔
          substrOf (stripChars ((preprocess_document (strL "Hi there. Bye now.")).chunks.getD 0 []))
            (strL "Hi there Bye now") = true) :=
  ⟨by decide, by decide,
    C4_used_iff (preprocess_document (strL "Hi there. Bye now."))
      (strL "Hi there Bye now") (strL "ok") 0 (by decide) (by decide)⟩

end DocQA
